import Mathlib

/-!
Shallow embedding of the psst repository's core utilities
(`src/psst-core/src/util.rs`) and of the paged REST collection loader
(`src/psst-gui/src/web.rs`, `Web::with_paging`), together with proofs of
the specification's claims about them.

Conventions of the embedding:
* Machine integers are `Nat` with explicit `% 2 ^ 64` where the Rust code
  performs unchecked `u64` arithmetic that may overflow.
* Fallible operations (`io::Result`) become `Option`.
* Stateful code is explicit state passing: each operation takes the state
  and returns the new state together with its result.
-/

set_option maxRecDepth 100000

namespace Psst

/-- `2 ^ 64`, the modulus of Rust `u64` arithmetic. -/
def U64_MOD : Nat := 2 ^ 64

/-- Rust `std::io::SeekFrom`.  `start` carries a `u64`, the other two an
`i64` (modelled as `Int`). -/
inductive SeekFrom where
  | start (n : Nat)
  | fromEnd (i : Int)
  | current (i : Int)
deriving DecidableEq, Repr

/-- A seekable random-access backing store (the `T : io::Seek + io::Read +
io::Write` the `OffsetFile` wraps): a byte buffer plus a cursor.  Its
`seek`/`read`/`write` follow `std::fs::File` semantics: seeking past the
end is allowed, seeking to a negative position is an error, reads stop at
end of data, writes past the end zero-fill the gap. -/
structure Store where
  data : List Nat
  pos : Nat
deriving DecidableEq, Repr

/-- `io::Seek::seek` on the backing store: returns the new absolute
position, or `none` (an `io::Error`) when the target would be negative. -/
def Store.seek (s : Store) : SeekFrom → Option (Store × Nat)
  | SeekFrom.start n => some ({ s with pos := n }, n)
  | SeekFrom.fromEnd i =>
      let t : Int := (s.data.length : Int) + i
      if t < 0 then none else some ({ s with pos := t.toNat }, t.toNat)
  | SeekFrom.current i =>
      let t : Int := (s.pos : Int) + i
      if t < 0 then none else some ({ s with pos := t.toNat }, t.toNat)

/-- `io::Read::read` on the backing store: reads up to `k` bytes starting
at the cursor and advances the cursor by the number of bytes read. -/
def Store.read (s : Store) (k : Nat) : Store × List Nat :=
  let bytes := (s.data.drop s.pos).take k
  ({ s with pos := s.pos + bytes.length }, bytes)

/-- `io::Write::write` on the backing store: overwrites `bs` at the
cursor (zero-filling any gap between the end of data and the cursor) and
advances the cursor past the written bytes. -/
def Store.write (s : Store) (bs : List Nat) : Store × Nat :=
  let padded := s.data ++ List.replicate (s.pos - s.data.length) 0
  ({ data := padded.take s.pos ++ bs ++ padded.drop (s.pos + bs.length),
     pos := s.pos + bs.length }, bs.length)

/-- `OffsetFile<T>` from `src/psst-core/src/util.rs`: a backing store plus
a fixed base offset. -/
structure OffsetFile where
  stream : Store
  offset : Nat
deriving DecidableEq, Repr

/-- `OffsetFile::new`: seeks the backing store to `offset` and wraps it. -/
def OffsetFile.new (stream : Store) (offset : Nat) : Option OffsetFile :=
  match stream.seek (SeekFrom.start offset) with
  | none => none
  | some (s, _) => some { stream := s, offset := offset }

/-- The `SeekFrom` the `io::Seek` impl of `OffsetFile` passes to the
backing store: `Start(n)` becomes `Start(n + offset)` (unchecked `u64`
addition, hence the `% 2 ^ 64`), everything else passes through. -/
def OffsetFile.seekTarget (f : OffsetFile) : SeekFrom → SeekFrom
  | SeekFrom.start n => SeekFrom.start ((n + f.offset) % U64_MOD)
  | p => p

/-- `impl io::Seek for OffsetFile`: seeks the backing store at the
translated target and reports `new_pos.saturating_sub(offset)` (Nat
subtraction is exactly saturating subtraction). -/
def OffsetFile.seek (f : OffsetFile) (pos : SeekFrom) : Option (OffsetFile × Nat) :=
  match f.stream.seek (f.seekTarget pos) with
  | none => none
  | some (s, newPos) => some ({ f with stream := s }, newPos - f.offset)

/-- `impl io::Read for OffsetFile`: delegates directly to the backing
store at its current cursor. -/
def OffsetFile.read (f : OffsetFile) (k : Nat) : OffsetFile × List Nat :=
  let r := f.stream.read k
  ({ f with stream := r.1 }, r.2)

/-- `impl io::Write for OffsetFile`: delegates directly to the backing
store at its current cursor. -/
def OffsetFile.write (f : OffsetFile) (bs : List Nat) : OffsetFile × Nat :=
  let r := f.stream.write bs
  ({ f with stream := r.1 }, r.2)

/-- One operation a caller can perform on an `OffsetFile` view. -/
inductive Op where
  | seek (p : SeekFrom)
  | read (k : Nat)
  | write (bs : List Nat)
deriving DecidableEq, Repr

/-- Run one operation on the view, keeping only the resulting state. -/
def OffsetFile.runOp (f : OffsetFile) : Op → Option OffsetFile
  | Op.seek p => (f.seek p).map Prod.fst
  | Op.read k => some (f.read k).1
  | Op.write bs => some (f.write bs).1

/-- Run a sequence of operations on the view. -/
def OffsetFile.runOps (f : OffsetFile) : List Op → Option OffsetFile
  | [] => some f
  | op :: ops =>
      match f.runOp op with
      | none => none
      | some f2 => f2.runOps ops

/-- An operation is `good` for base offset `b` when it is a read, a write,
or a start-relative seek whose `u64` target addition does not overflow:
these are the operations under which the view's cursor provably never
drops below `b`. -/
def goodOp (b : Nat) : Op → Bool
  | Op.seek (SeekFrom.start n) => decide (b + n < U64_MOD)
  | Op.seek _ => false
  | Op.read _ => true
  | Op.write _ => true

/-- `Sequence<T>` from `src/psst-core/src/util.rs`, for an unsigned
integer of width `bits`: the internal value is a `Nat` reduced
modulo `2 ^ bits`. -/
structure Sequence where
  bits : Nat
  val : Nat
deriving DecidableEq, Repr

/-- `Sequence::new`. -/
def Sequence.new (bits value : Nat) : Sequence := ⟨bits, value⟩

/-- `Sequence::advance`: `let next = self.0.wrapping_add(&T::one());
mem::replace(&mut self.0, next)` — returns the pre-increment value and
stores the wrapping successor. -/
def Sequence.advance (s : Sequence) : Nat × Sequence :=
  (s.val, { s with val := (s.val + 1) % 2 ^ s.bits })

/-- The state of the counter after `k` calls to `advance`. -/
def Sequence.iterate (s : Sequence) : Nat → Sequence
  | 0 => s
  | k + 1 => ((Sequence.iterate s k).advance).2

/-- Possible outcomes of the underlying `TcpStream::shutdown` call, which
`TcpShutdown::shutdown` discards. -/
inductive CloseResult where
  | ok
  | alreadyClosed
  | peerReset
  | otherError (code : Nat)
deriving DecidableEq, Repr

/-- `TcpShutdown` from `src/psst-core/src/util.rs`: the owned socket is
modelled by the number of close attempts issued on it; `shutdownFlag` is
the `shutdown: bool` field. -/
structure TcpShutdown where
  closeAttempts : Nat
  shutdownFlag : Bool
deriving DecidableEq, Repr

/-- `TcpShutdown::new`: flag starts false, no close attempted yet. -/
def TcpShutdown.new : TcpShutdown := ⟨0, false⟩

/-- `TcpShutdown::shutdown`: if the flag is not set, set it and attempt
one underlying close (`let _ = self.stream.shutdown(Shutdown::Both)`); the
environment's outcome `r` of that close is discarded, so the resulting
state does not depend on it and no error is returned. -/
def TcpShutdown.shutdown (t : TcpShutdown) (_r : CloseResult) : TcpShutdown :=
  if t.shutdownFlag = false then
    { closeAttempts := t.closeAttempts + 1, shutdownFlag := true }
  else t

/-- `TcpShutdown::has_been_shut_down`: reads the flag; being a pure
function of the state, it cannot change it. -/
def TcpShutdown.has_been_shut_down (t : TcpShutdown) : Bool := t.shutdownFlag

/-- Call `shutdown` once per element of `rs` (the environment's close
outcomes), in order. -/
def TcpShutdown.shutdownN (t : TcpShutdown) : List CloseResult → TcpShutdown
  | [] => t
  | r :: rs => (t.shutdown r).shutdownN rs

/-- Modelled from the spec: the binary wire format of the protobuf
messages handled by `serialize_protobuf`/`deserialize_protobuf`.  The
message schemas and the `quick_protobuf` codec internals are not under
`src/`; the spec describes a length-prefixed, binary, tag/value encoding,
modelled here as protobuf: LEB128 base-128 varints. `encodeVarint` emits
the low 7 bits with a continuation marker while more bits remain. -/
def encodeVarint (n : Nat) : List Nat :=
  if n < 128 then [n]
  else (n % 128 + 128) :: encodeVarint (n / 128)
termination_by n
decreasing_by exact Nat.div_lt_self (by omega) (by omega)

/-- Modelled from the spec: varint decoding, the inverse of
`encodeVarint`; fails on truncated input. -/
def decodeVarint : List Nat → Option (Nat × List Nat)
  | [] => none
  | b :: rest =>
      if b < 128 then some (b, rest)
      else
        match decodeVarint rest with
        | none => none
        | some r => some (b - 128 + 128 * r.1, r.2)

/-- Modelled from the spec: a protobuf field value — a varint scalar or a
length-delimited byte payload (strings, bytes, nested messages). -/
inductive FieldVal where
  | varint (n : Nat)
  | lengthDelimited (bs : List Nat)
deriving DecidableEq, Repr

/-- Modelled from the spec: one message field, a positive tag number plus
a value. -/
structure ProtoField where
  tag : Nat
  val : FieldVal
deriving DecidableEq, Repr

/-- Protobuf wire type of a field value: 0 for varint, 2 for
length-delimited. -/
def wireType : FieldVal → Nat
  | FieldVal.varint _ => 0
  | FieldVal.lengthDelimited _ => 2

/-- Modelled from the spec: encoding of one field — the key varint
`tag * 8 + wire_type` followed by the payload. -/
def encodeField (f : ProtoField) : List Nat :=
  encodeVarint (f.tag * 8 + wireType f.val) ++
    match f.val with
    | FieldVal.varint n => encodeVarint n
    | FieldVal.lengthDelimited bs => encodeVarint bs.length ++ bs

/-- Modelled from the spec: `serialize_protobuf` — writes the binary
encoding of every field of the message in order (the in-memory `Writer`
over a `Vec` cannot fail, so serialization of a valid message succeeds). -/
def serialize_protobuf (msg : List ProtoField) : List Nat :=
  (msg.map encodeField).flatten

/-- Modelled from the spec: decoding of one field — parses the key
varint, rejects tag 0 and unknown wire types, then parses the payload;
fails on truncated input.  The decoded byte payload is `List.take` of the
input, an owned copy in this embedding. -/
def decodeField (bytes : List Nat) : Option (ProtoField × List Nat) :=
  match decodeVarint bytes with
  | none => none
  | some (key, rest) =>
      if key / 8 = 0 then none
      else if key % 8 = 0 then
        match decodeVarint rest with
        | none => none
        | some r => some (⟨key / 8, FieldVal.varint r.1⟩, r.2)
      else if key % 8 = 2 then
        match decodeVarint rest with
        | none => none
        | some r =>
            if r.1 ≤ r.2.length then
              some (⟨key / 8, FieldVal.lengthDelimited (r.2.take r.1)⟩, r.2.drop r.1)
            else none
      else none

/-- Modelled from the spec: parse fields until the buffer is exhausted.
`fuel` bounds the number of fields; since every field occupies at least
one byte, the byte count is always enough fuel. -/
def deserializeFields : Nat → List Nat → Option (List ProtoField)
  | _, [] => some []
  | 0, _ :: _ => none
  | fuel + 1, b :: bs =>
      match decodeField (b :: bs) with
      | none => none
      | some (f, rest) =>
          match deserializeFields fuel rest with
          | none => none
          | some fs => some (f :: fs)

/-- Modelled from the spec: `deserialize_protobuf` — parses a
length-governed reader over the whole byte slice. -/
def deserialize_protobuf (bytes : List Nat) : Option (List ProtoField) :=
  deserializeFields bytes.length bytes

/-- A valid message value: every tag is positive and every byte of a
length-delimited payload is a byte. -/
def validField (f : ProtoField) : Bool :=
  decide (1 ≤ f.tag) &&
    match f.val with
    | FieldVal.varint _ => true
    | FieldVal.lengthDelimited bs => bs.all (fun b => decide (b < 256))

/-- A valid message: all of its fields are valid. -/
def validMsg (msg : List ProtoField) : Bool := msg.all validField

/-- One page of a paged REST collection response
(`aspotify::Page`), as consumed by `Web::with_paging` in
`src/psst-gui/src/web.rs`. -/
structure Page (α : Type) where
  items : List α
  total : Nat
  limit : Nat
  offset : Nat

/-- `Web::PAGED_ITEMS_LIMIT` from `src/psst-gui/src/web.rs`. -/
def PAGED_ITEMS_LIMIT : Nat := 200

/-- The `loop` body of `Web::with_paging`: fetch the page at
`(limit, offset)`, extend `results` with the page's items filtered
through `map_fn`, and continue with the page's reported limit/offset
while `page.total > results.len() && results.len() < PAGED_ITEMS_LIMIT`.
`none` is an error of `iter_fn` (the `?` operator) or fuel exhaustion (a
non-terminating run); on success it returns the accumulated results
together with the number of items contributed by the final page. -/
def withPagingLoop {α β : Type} (iter_fn : Nat → Nat → Option (Page α))
    (map_fn : α → Option β) :
    Nat → Nat → Nat → List β → Option (List β × Nat)
  | 0, _, _, _ => none
  | fuel + 1, limit, offset, results =>
      match iter_fn limit offset with
      | none => none
      | some page =>
          let results2 := results ++ page.items.filterMap map_fn
          if results2.length < page.total ∧ results2.length < PAGED_ITEMS_LIMIT then
            withPagingLoop iter_fn map_fn fuel page.limit (page.offset + page.limit) results2
          else
            some (results2, (page.items.filterMap map_fn).length)

/-- `Web::with_paging`: the loop started with `limit = 50`, `offset = 0`
and empty results. -/
def with_paging {α β : Type} (iter_fn : Nat → Nat → Option (Page α))
    (map_fn : α → Option β) (fuel : Nat) : Option (List β × Nat) :=
  withPagingLoop iter_fn map_fn fuel 50 0 []

/-- A 200-byte backing store used by concrete instances. -/
def cexStore : Store := ⟨List.replicate 200 0, 0⟩

/-- A concrete page source for the paging witness: one page carrying
items `[1, 2, 3]` with reported total 3. -/
def demoIter : Nat → Nat → Option (Page Nat) := fun _ _ => some ⟨[1, 2, 3], 3, 50, 0⟩

/-- A concrete two-field message for the round-trip witness. -/
def demoMsg : List ProtoField :=
  [⟨1, FieldVal.varint 300⟩, ⟨2, FieldVal.lengthDelimited [255, 0, 7]⟩]

/-! ## Helper lemmas -/

theorem Store.seek_snd_pos {s s2 : Store} {p : SeekFrom} {r : Nat}
    (h : s.seek p = some (s2, r)) : r = s2.pos := by
  cases p with
  | start n =>
      simp only [Store.seek, Option.some.injEq, Prod.mk.injEq] at h
      obtain ⟨h1, h2⟩ := h
      subst h1; subst h2; rfl
  | fromEnd i =>
      simp only [Store.seek] at h
      split at h
      · exact absurd h (by simp)
      · simp only [Option.some.injEq, Prod.mk.injEq] at h
        obtain ⟨h1, h2⟩ := h
        subst h1; subst h2; rfl
  | current i =>
      simp only [Store.seek] at h
      split at h
      · exact absurd h (by simp)
      · simp only [Option.some.injEq, Prod.mk.injEq] at h
        obtain ⟨h1, h2⟩ := h
        subst h1; subst h2; rfl

theorem Sequence.iterate_bits (s : Sequence) (k : Nat) : (s.iterate k).bits = s.bits := by
  induction k with
  | zero => rfl
  | succ k ih => simp [Sequence.iterate, Sequence.advance, ih]

theorem Sequence.iterate_val (s : Sequence) (h : s.val < 2 ^ s.bits) (k : Nat) :
    (s.iterate k).val = (s.val + k) % 2 ^ s.bits := by
  induction k with
  | zero => simpa [Sequence.iterate] using (Nat.mod_eq_of_lt h).symm
  | succ k ih =>
      simp only [Sequence.iterate, Sequence.advance, ih, Sequence.iterate_bits]
      rw [Nat.mod_add_mod]
      rfl

theorem shutdown_flag_true (t : TcpShutdown) (r : CloseResult) :
    (t.shutdown r).shutdownFlag = true := by
  unfold TcpShutdown.shutdown
  split
  · rfl
  · next h => simpa using h

theorem shutdown_of_flag (t : TcpShutdown) (r : CloseResult) (h : t.shutdownFlag = true) :
    t.shutdown r = t := by
  unfold TcpShutdown.shutdown
  simp [h]

theorem shutdownN_of_flag (t : TcpShutdown) (rs : List CloseResult)
    (h : t.shutdownFlag = true) : t.shutdownN rs = t := by
  induction rs with
  | nil => rfl
  | cons r rs ih => rw [TcpShutdown.shutdownN, shutdown_of_flag t r h, ih]

theorem encodeVarint_ne_nil (n : Nat) : encodeVarint n ≠ [] := by
  unfold encodeVarint
  split <;> simp

theorem decodeVarint_encodeVarint (n : Nat) :
    ∀ rest, decodeVarint (encodeVarint n ++ rest) = some (n, rest) := by
  induction n using Nat.strong_induction_on with
  | _ n ih =>
    intro rest
    unfold encodeVarint
    split
    · next h => simp [decodeVarint, h]
    · next h =>
        have hrec := ih (n / 128) (Nat.div_lt_self (by omega) (by omega)) rest
        have h2 : ¬ (n % 128 + 128 < 128) := by omega
        simp only [List.cons_append, decodeVarint, List.append_eq, hrec, h2, if_false,
          Option.some.injEq, Prod.mk.injEq]
        constructor
        · omega
        · trivial

theorem encodeField_ne_nil (f : ProtoField) : encodeField f ≠ [] := by
  simp only [encodeField]
  intro h
  exact encodeVarint_ne_nil (f.tag * 8 + wireType f.val) (List.append_eq_nil.mp h).1

theorem decodeField_encodeField (f : ProtoField) (rest : List Nat) (htag : 1 ≤ f.tag) :
    decodeField (encodeField f ++ rest) = some (f, rest) := by
  obtain ⟨tag, val⟩ := f
  simp only at htag
  cases val with
  | varint n =>
      have e1 : (tag * 8 + wireType (FieldVal.varint n)) / 8 = tag := by
        simp only [wireType]; omega
      have e2 : (tag * 8 + wireType (FieldVal.varint n)) % 8 = 0 := by
        simp only [wireType]; omega
      have h0 : ¬ tag = 0 := by omega
      simp [encodeField, decodeField, decodeVarint_encodeVarint, e1, e2, h0]
  | lengthDelimited bs =>
      have e1 : (tag * 8 + wireType (FieldVal.lengthDelimited bs)) / 8 = tag := by
        simp only [wireType]; omega
      have e2 : (tag * 8 + wireType (FieldVal.lengthDelimited bs)) % 8 = 2 := by
        simp only [wireType]; omega
      have h0 : ¬ tag = 0 := by omega
      simp [encodeField, decodeField, decodeVarint_encodeVarint, e1, e2, h0,
        List.take_left, List.drop_left]

theorem deserializeFields_serialize (msg : List ProtoField) (hv : validMsg msg = true) :
    ∀ fuel, (serialize_protobuf msg).length ≤ fuel →
      deserializeFields fuel (serialize_protobuf msg) = some msg := by
  induction msg with
  | nil =>
      intro fuel _
      have hz : serialize_protobuf [] = ([] : List Nat) := rfl
      rw [hz]
      cases fuel <;> rfl
  | cons f fs ih =>
      intro fuel hlen
      simp only [validMsg, List.all_cons, Bool.and_eq_true] at hv
      obtain ⟨hf, hfs⟩ := hv
      have htag : 1 ≤ f.tag := by
        simp only [validField, Bool.and_eq_true, decide_eq_true_eq] at hf
        exact hf.1
      have hser : serialize_protobuf (f :: fs) = encodeField f ++ serialize_protobuf fs := by
        simp [serialize_protobuf]
      obtain ⟨b, bs, hb⟩ : ∃ b bs, encodeField f = b :: bs := by
        cases hEn : encodeField f with
        | nil => exact absurd hEn (encodeField_ne_nil f)
        | cons x xs => exact ⟨x, xs, rfl⟩
      have hdf : decodeField (encodeField f ++ serialize_protobuf fs) =
          some (f, serialize_protobuf fs) := decodeField_encodeField f _ htag
      cases fuel with
      | zero =>
          exfalso
          rw [hser, hb] at hlen
          simp at hlen
      | succ fuel =>
          have hrec : deserializeFields fuel (serialize_protobuf fs) = some fs := by
            apply ih hfs
            rw [hser, hb] at hlen
            simp only [List.cons_append, List.length_cons, List.length_append] at hlen
            omega
          rw [hser, hb]
          rw [hb] at hdf
          simp only [List.cons_append] at hdf ⊢
          simp only [deserializeFields, hdf, hrec]

theorem withPagingLoop_bound {α β : Type} (iter_fn : Nat → Nat → Option (Page α))
    (map_fn : α → Option β) (fuel : Nat) :
    ∀ limit offset results res c,
      results.length < PAGED_ITEMS_LIMIT →
      withPagingLoop iter_fn map_fn fuel limit offset results = some (res, c) →
      res.length < PAGED_ITEMS_LIMIT + c := by
  induction fuel with
  | zero =>
      intro limit offset results res c hlt h
      simp [withPagingLoop] at h
  | succ fuel ih =>
      intro limit offset results res c hlt h
      cases hit : iter_fn limit offset with
      | none => simp [withPagingLoop, hit] at h
      | some page =>
          simp only [withPagingLoop, hit] at h
          by_cases hc : (results ++ page.items.filterMap map_fn).length < page.total ∧
              (results ++ page.items.filterMap map_fn).length < PAGED_ITEMS_LIMIT
          · rw [if_pos hc] at h
            exact ih page.limit (page.offset + page.limit) _ res c hc.2 h
          · rw [if_neg hc] at h
            simp only [Option.some.injEq, Prod.mk.injEq] at h
            obtain ⟨h1, h2⟩ := h
            subst h1
            subst h2
            simp only [List.length_append]
            omega

/-! ## Claims -/

theorem runOp_pos_ge (f f2 : OffsetFile) (op : Op) (hg : goodOp f.offset op = true)
    (hpos : f.offset ≤ f.stream.pos) (h : f.runOp op = some f2) :
    f2.offset = f.offset ∧ f.offset ≤ f2.stream.pos := by
  cases op with
  | read k =>
      simp only [OffsetFile.runOp, Option.some.injEq] at h
      subst h
      exact ⟨rfl, by simp only [OffsetFile.read, Store.read]; omega⟩
  | write bs =>
      simp only [OffsetFile.runOp, Option.some.injEq] at h
      subst h
      exact ⟨rfl, by simp only [OffsetFile.write, Store.write]; omega⟩
  | seek p =>
      cases p with
      | start n =>
          simp only [goodOp, decide_eq_true_eq] at hg
          simp only [OffsetFile.runOp, OffsetFile.seek, OffsetFile.seekTarget, Store.seek,
            Option.map_some', Option.some.injEq] at h
          subst h
          refine ⟨rfl, ?_⟩
          show f.offset ≤ (n + f.offset) % U64_MOD
          rw [Nat.mod_eq_of_lt (by omega)]
          omega
      | fromEnd i => simp [goodOp] at hg
      | current i => simp [goodOp] at hg

theorem runOps_pos_ge (ops : List Op) : ∀ f0 f1 : OffsetFile,
    ops.all (goodOp f0.offset) = true → f0.offset ≤ f0.stream.pos →
    f0.runOps ops = some f1 → f1.offset = f0.offset ∧ f0.offset ≤ f1.stream.pos := by
  induction ops with
  | nil =>
      intro f0 f1 _ hpos hrun
      simp only [OffsetFile.runOps, Option.some.injEq] at hrun
      subst hrun
      exact ⟨rfl, hpos⟩
  | cons op ops ih =>
      intro f0 f1 hall hpos hrun
      simp only [List.all_cons, Bool.and_eq_true] at hall
      obtain ⟨hop, hops2⟩ := hall
      cases hR : f0.runOp op with
      | none => simp [OffsetFile.runOps, hR] at hrun
      | some f2 =>
          simp only [OffsetFile.runOps, hR] at hrun
          obtain ⟨he, hp⟩ := runOp_pos_ge f0 f2 op hop hpos hR
          obtain ⟨he2, hp2⟩ := ih f2 f1 (by rw [he]; exact hops2) (by rw [he]; exact hp) hrun
          exact ⟨he2.trans he, by rw [← he]; exact hp2⟩

/-- C1: for `OffsetFile` with base offset `b`, `seek(Start(n))` asks the
backing store for absolute position `b + n` (provided the `u64` addition
does not overflow), `End`- and `Current`-relative seeks are passed
through unchanged, and every successful seek reports the backing store's
resulting absolute position minus `b` with saturating subtraction, so a
backing position at or before `b` is reported as logical 0. -/
theorem offsetFile_seek_spec (f : OffsetFile) (n : Nat) (i j : Int)
    (h : f.offset + n < U64_MOD) :
    f.seekTarget (SeekFrom.start n) = SeekFrom.start (f.offset + n) ∧
    f.seekTarget (SeekFrom.fromEnd i) = SeekFrom.fromEnd i ∧
    f.seekTarget (SeekFrom.current j) = SeekFrom.current j ∧
    ∀ p f2 r, f.seek p = some (f2, r) →
      r = f2.stream.pos - f.offset ∧ (f2.stream.pos ≤ f.offset → r = 0) := by
  refine ⟨?_, rfl, rfl, ?_⟩
  · show SeekFrom.start ((n + f.offset) % U64_MOD) = SeekFrom.start (f.offset + n)
    rw [Nat.mod_eq_of_lt (by omega), Nat.add_comm]
  · intro p f2 r hseek
    cases hs : f.stream.seek (f.seekTarget p) with
    | none => simp [OffsetFile.seek, hs] at hseek
    | some sr =>
        obtain ⟨s2, np⟩ := sr
        have hp : np = s2.pos := Store.seek_snd_pos hs
        subst hp
        simp only [OffsetFile.seek, hs, Option.some.injEq, Prod.mk.injEq] at hseek
        obtain ⟨h1, h2⟩ := hseek
        subst h1
        refine ⟨h2.symm, fun hle => ?_⟩
        rw [← h2]
        exact Nat.sub_eq_zero_of_le hle

/-- Witness for C1 at base offset 100, `Start(5)`: the backing store is
asked for absolute position 105. -/
theorem offsetFile_seek_spec_witness :
    (OffsetFile.mk ⟨[], 0⟩ 100).seekTarget (SeekFrom.start 5) = SeekFrom.start 105 :=
  (offsetFile_seek_spec ⟨⟨[], 0⟩, 100⟩ 5 (-3) 7 (by decide)).1

/-- C2 counterexample: on a view with base offset 100 over a 200-byte
store (cursor at 100 after construction), the view's own operation
`seek(Current(-60))` moves the backing cursor to absolute position 40,
below the base offset, while reporting logical position 0 (so the
requested logical position 0 does not correspond to backing position
`100 + 0`); a subsequent 10-byte read on the view then consumes bytes at
backing positions 40 through 49, all below the base offset.  This
refutes the claim that reads/writes never cross below `base_offset`
under arbitrary view operations. -/
theorem offsetFile_below_base_counterexample :
    ((OffsetFile.new cexStore 100).bind fun f => f.seek (SeekFrom.current (-60))) =
        some (⟨⟨List.replicate 200 0, 40⟩, 100⟩, 0) ∧
    (40 : Nat) < 100 ∧
    ((OffsetFile.mk ⟨List.replicate 200 0, 40⟩ 100).read 10).1.stream.pos = 50 ∧
    ((OffsetFile.mk ⟨List.replicate 200 0, 40⟩ 100).read 10).2.length = 10 := by
  decide

/-- C2 (amended): starting from a freshly constructed view with base
offset `b`, under any sequence of the view's reads, writes, and
**start-relative** seeks whose `u64` target addition does not overflow,
the backing cursor never drops below `b`; since reads and writes consume
bytes forward from the cursor, no read or write touches a backing
position below `b`.  (`End`- and `Current`-relative seeks are excluded:
they pass through untranslated and can move the cursor below `b`, as the
counterexample shows.) -/
theorem offsetFile_start_seeks_stay_above_base (st : Store) (b : Nat) (ops : List Op)
    (f0 f1 : OffsetFile) (h0 : OffsetFile.new st b = some f0)
    (hops : ops.all (goodOp b) = true) (hrun : f0.runOps ops = some f1) :
    f1.offset = b ∧ b ≤ f1.stream.pos := by
  have hf0 : f0.offset = b ∧ b ≤ f0.stream.pos := by
    simp only [OffsetFile.new, Store.seek, Option.some.injEq] at h0
    subst h0
    exact ⟨rfl, Nat.le_refl b⟩
  obtain ⟨he, hp⟩ := runOps_pos_ge ops f0 f1 (by rw [hf0.1]; exact hops)
    (by rw [hf0.1]; exact hf0.2) hrun
  exact ⟨he.trans hf0.1, by rw [hf0.1] at hp; exact hp⟩

/-- Witness for the amended C2: base offset 100, operations
`[Seek(Start(20)), Read(5)]` leave the backing cursor at 125, at or
above the base offset. -/
theorem offsetFile_start_seeks_stay_above_base_witness :
    (OffsetFile.mk ⟨List.replicate 200 0, 125⟩ 100).offset = 100 ∧
      100 ≤ (OffsetFile.mk ⟨List.replicate 200 0, 125⟩ 100).stream.pos :=
  offsetFile_start_seeks_stay_above_base cexStore 100
    [Op.seek (SeekFrom.start 20), Op.read 5]
    ⟨⟨List.replicate 200 0, 100⟩, 100⟩ ⟨⟨List.replicate 200 0, 125⟩, 100⟩
    (by decide) (by decide) (by decide)

/-- C10: `seek(Start(n))` computes the backing target as `n + offset`
with unchecked `u64` addition: when `n ≤ u64::MAX - offset` the target is
exactly `offset + n`, and this precondition is required — when `n` is
above that bound the addition wraps modulo `2 ^ 64` and the target is not
`offset + n`. -/
theorem offsetFile_seek_start_overflow (f : OffsetFile) (n : Nat)
    (hb : f.offset < U64_MOD) (hn : n < U64_MOD) :
    (n ≤ U64_MOD - 1 - f.offset →
        f.seekTarget (SeekFrom.start n) = SeekFrom.start (f.offset + n)) ∧
    (U64_MOD - 1 - f.offset < n →
        f.seekTarget (SeekFrom.start n) ≠ SeekFrom.start (f.offset + n)) := by
  have hM : U64_MOD = 18446744073709551616 := by norm_num [U64_MOD]
  constructor
  · intro hle
    show SeekFrom.start ((n + f.offset) % U64_MOD) = SeekFrom.start (f.offset + n)
    have hx : (n + f.offset) % U64_MOD = f.offset + n := by
      rw [hM] at hle hb hn ⊢
      omega
    rw [hx]
  · intro hgt heq
    have h2 : (n + f.offset) % U64_MOD = f.offset + n := by
      simpa only [OffsetFile.seekTarget, SeekFrom.start.injEq] using heq
    rw [hM] at h2 hb hn hgt
    omega

/-- Witness for C10 at base offset 1, `Start(5)`: the non-overflowing
branch gives backing target 6. -/
theorem offsetFile_seek_start_overflow_witness :
    (OffsetFile.mk ⟨[], 0⟩ 1).seekTarget (SeekFrom.start 5) = SeekFrom.start 6 :=
  (offsetFile_seek_start_overflow ⟨⟨[], 0⟩, 1⟩ 5 (by decide) (by decide)).1 (by decide)

/-- C3: `Sequence::advance` returns the pre-increment value `v` and
replaces the internal state with `(v + 1) % 2 ^ bits` (wrapping
addition); it is a total function, so it never panics, including at
`v = 2 ^ bits - 1`. -/
theorem sequence_advance_spec (s : Sequence) :
    (s.advance).1 = s.val ∧ (s.advance).2.val = (s.val + 1) % 2 ^ s.bits ∧
      (s.advance).2.bits = s.bits :=
  ⟨rfl, rfl, rfl⟩

/-- C4: calling `advance` `2 ^ bits + 1` times returns the same value on
the first call (after 0 prior calls) and on the last call (after
`2 ^ bits` prior calls); every call is a total function application, so
none of them panics. -/
theorem sequence_advance_wraparound (s : Sequence) (h : s.val < 2 ^ s.bits) :
    ((s.iterate 0).advance).1 = s.val ∧ ((s.iterate (2 ^ s.bits)).advance).1 = s.val := by
  refine ⟨rfl, ?_⟩
  show (s.iterate (2 ^ s.bits)).val = s.val
  rw [Sequence.iterate_val s h, Nat.add_mod_right, Nat.mod_eq_of_lt h]

/-- Witness for C4 at `bits = 3`, starting value 5: the 1st and 9th
calls both return 5. -/
theorem sequence_advance_wraparound_witness :
    (((Sequence.new 3 5).iterate (2 ^ (Sequence.new 3 5).bits)).advance).1 = 5 :=
  (sequence_advance_wraparound (Sequence.new 3 5) (by decide)).2

/-- C5: `TcpShutdown::shutdown` on an open guard sets the flag and
attempts exactly one close; on an already-shut-down guard it is a no-op
with no I/O; any `N ≥ 1` consecutive calls attempt at most one close in
total and leave `has_been_shut_down` true.  All operations are total
functions (no panic), and `has_been_shut_down` is a pure function of the
state, so it cannot change it. -/
theorem tcpShutdown_idempotent (t : TcpShutdown) (r : CloseResult)
    (rs : List CloseResult) (h : 1 ≤ rs.length) :
    (t.shutdownFlag = false →
        (t.shutdown r).shutdownFlag = true ∧
          (t.shutdown r).closeAttempts = t.closeAttempts + 1) ∧
    (t.shutdownFlag = true → t.shutdown r = t) ∧
    (t.shutdownN rs).closeAttempts ≤ t.closeAttempts + 1 ∧
    (t.shutdownN rs).has_been_shut_down = true := by
  obtain ⟨r0, rs0, rfl⟩ : ∃ r0 rs0, rs = r0 :: rs0 := by
    cases rs with
    | nil => simp at h
    | cons a l => exact ⟨a, l, rfl⟩
  have hN : t.shutdownN (r0 :: rs0) = t.shutdown r0 :=
    shutdownN_of_flag (t.shutdown r0) rs0 (shutdown_flag_true t r0)
  refine ⟨fun hf => ⟨shutdown_flag_true t r, ?_⟩,
    fun ht => shutdown_of_flag t r ht, ?_, ?_⟩
  · unfold TcpShutdown.shutdown
    simp [hf]
  · rw [hN]
    unfold TcpShutdown.shutdown
    split <;> simp
  · show (t.shutdownN (r0 :: rs0)).shutdownFlag = true
    rw [hN]
    exact shutdown_flag_true t r0

/-- Witness for C5: a fresh guard shut down twice reports shut-down
state. -/
theorem tcpShutdown_idempotent_witness :
    (TcpShutdown.new.shutdownN [CloseResult.ok, CloseResult.peerReset]).has_been_shut_down
      = true :=
  (tcpShutdown_idempotent TcpShutdown.new CloseResult.ok
    [CloseResult.ok, CloseResult.peerReset] (by decide)).2.2.2

/-- C6: `TcpShutdown::shutdown` is infallible from the caller's
perspective: it returns a plain state (no error value) for every outcome
of the underlying close, the resulting state does not depend on that
outcome (the result of the close is discarded), and the guard is in the
shut-down state afterwards. -/
theorem tcpShutdown_infallible (t : TcpShutdown) (r r2 : CloseResult) :
    (t.shutdown r).shutdownFlag = true ∧ t.shutdown r = t.shutdown r2 :=
  ⟨shutdown_flag_true t r, rfl⟩

/-- C7: for every valid message value, serialization succeeds (it is a
total function here, matching the infallible in-memory writer) and
deserializing the resulting bytes succeeds and yields a message equal to
the original in every field. -/
theorem protobuf_roundtrip (msg : List ProtoField) (hv : validMsg msg = true) :
    deserialize_protobuf (serialize_protobuf msg) = some msg :=
  deserializeFields_serialize msg hv (serialize_protobuf msg).length (Nat.le_refl _)

/-- Witness for C7: a concrete two-field message (a multi-byte varint and
a byte payload) round-trips. -/
theorem protobuf_roundtrip_witness :
    deserialize_protobuf (serialize_protobuf demoMsg) = some demoMsg :=
  protobuf_roundtrip demoMsg (by decide)

/-- C9: `with_paging` stops requesting further pages as soon as the
accumulated count reaches `PAGED_ITEMS_LIMIT` (200) or is at least the
total reported by the last page (first conjunct: whenever the stop
condition holds after a page, the loop returns immediately, issuing no
further request); and every terminating run returns at most
`PAGED_ITEMS_LIMIT` items plus the items contributed by the final page
fetched (second conjunct). -/
theorem with_paging_bounds {α β : Type} (iter_fn : Nat → Nat → Option (Page α))
    (map_fn : α → Option β) :
    (∀ fuel limit offset results page,
        iter_fn limit offset = some page →
        (PAGED_ITEMS_LIMIT ≤ (results ++ page.items.filterMap map_fn).length ∨
          page.total ≤ (results ++ page.items.filterMap map_fn).length) →
        withPagingLoop iter_fn map_fn (fuel + 1) limit offset results =
          some (results ++ page.items.filterMap map_fn,
            (page.items.filterMap map_fn).length)) ∧
    (∀ fuel res c, with_paging iter_fn map_fn fuel = some (res, c) →
        res.length ≤ PAGED_ITEMS_LIMIT + c) := by
  constructor
  · intro fuel limit offset results page hit hstop
    have hneg : ¬ ((results ++ page.items.filterMap map_fn).length < page.total ∧
        (results ++ page.items.filterMap map_fn).length < PAGED_ITEMS_LIMIT) := by
      rcases hstop with h | h
      · intro hcon; omega
      · intro hcon; omega
    simp only [withPagingLoop, hit]
    rw [if_neg hneg]
  · intro fuel res c h
    have := withPagingLoop_bound iter_fn map_fn fuel 50 0 [] res c
      (by simp [PAGED_ITEMS_LIMIT]) h
    omega

/-- Witness for C9: a one-page collection of three items (reported total
3) loads exactly those three items, within the bound. -/
theorem with_paging_bounds_witness :
    ([1, 2, 3] : List Nat).length ≤ PAGED_ITEMS_LIMIT + 3 :=
  (with_paging_bounds demoIter some).2 5 [1, 2, 3] 3 (by decide)

end Psst
